import Mathlib

/-!
Shallow embedding of the code-analysis core of the `omnigaurd-extension`
repository (the `ASTParser`, `extractCurrentFunctionMetadata` and
`CodebaseIndexer` modules), together with theorems settling the behavioural
claims about it.

Tree-sitter syntax nodes are modelled as a simple rose tree carrying the
node-type string, the named-field children (`childForFieldName`), the ordered
child list, character-index span and row span.  JavaScript strings are
modelled as Lean `String`s, maps as association lists preserving insertion
order, and thrown exceptions as `Option.none` results.
-/

namespace OmniGuard

/-- A tree-sitter syntax node: type string, field-name children, ordered
children, `startIndex`/`endIndex` (character offsets) and
`startPosition.row`/`endPosition.row`. -/
inductive Node : Type where
  | mk : String → List (String × Node) → List Node → Nat → Nat → Nat → Nat → Node

def Node.type : Node → String
  | .mk t _ _ _ _ _ _ => t

def Node.fields : Node → List (String × Node)
  | .mk _ f _ _ _ _ _ => f

def Node.children : Node → List Node
  | .mk _ _ c _ _ _ _ => c

def Node.startIndex : Node → Nat
  | .mk _ _ _ s _ _ _ => s

def Node.endIndex : Node → Nat
  | .mk _ _ _ _ e _ _ => e

def Node.startRow : Node → Nat
  | .mk _ _ _ _ _ r _ => r

def Node.endRow : Node → Nat
  | .mk _ _ _ _ _ _ r => r

/-- `node.childForFieldName(f)`: the node stored under field name `f`,
or absent (tree-sitter returns `null`). -/
def childForFieldName (n : Node) (f : String) : Option Node :=
  (n.fields.find? (fun p => p.1 == f)).map (fun p => p.2)

/-- `getNodeText(node, code)`: `code.substring(node.startIndex, node.endIndex)`,
and the empty string when the node is `null`. -/
def getNodeText (node : Option Node) (code : String) : String :=
  match node with
  | none => ""
  | some n => String.mk ((code.data.drop n.startIndex).take (n.endIndex - n.startIndex))

/-- JavaScript `String.prototype.includes`: substring containment. -/
def strIncludes (s sub : String) : Bool :=
  (List.range (s.data.length + 1)).any
    (fun i => sub.data == (s.data.drop i).take sub.data.length)

/-- The body-opening delimiter character, an opening curly brace. -/
def braceChar : Char := Char.ofNat 123

/-- JavaScript `text.split(braceChar)[0]`: the text before the first opening
brace (the whole text when there is none). -/
def beforeBrace (s : String) : String :=
  String.mk (s.data.takeWhile (fun c => c != braceChar))

/-- JavaScript `String.prototype.trim`: strip whitespace from both ends. -/
def trimChars (s : String) : String :=
  String.mk
    (((s.data.dropWhile Char.isWhitespace).reverse.dropWhile
      Char.isWhitespace).reverse)

/-- The node-type strings `calculateComplexity` counts as branching
constructs. -/
def complexityNodes : List String :=
  ["if_statement", "for_statement", "while_statement", "case", "catch"]

mutual

/-- The pure form of the `traverse` closure inside `calculateComplexity`:
how many nodes of the subtree rooted at `n` (the root included) have a type
listed in `complexityNodes`. -/
def countComplexity : Node → Nat
  | .mk t _ cs _ _ _ _ =>
      (if complexityNodes.contains t then 1 else 0) + countComplexityList cs

/-- Total `countComplexity` over a list of subtrees, in order. -/
def countComplexityList : List Node → Nat
  | [] => 0
  | c :: cs => countComplexity c + countComplexityList cs

end

/-- `ASTParser.calculateComplexity`: complexity starts at 1 and `traverse`
adds one per branching node in the subtree. -/
def calculateComplexity (node : Node) : Nat :=
  1 + countComplexity node

structure FunctionMetadata where
  name : String
  signature : String
  params : List (String × String)
  returnType : String
  lineStart : Nat
  lineEnd : Nat
  visibility : String
  complexity : Nat
deriving DecidableEq, Repr

structure FileAnalysis where
  fileName : String
  language : String
  functions : List FunctionMetadata
  classes : List String
  imports : List String
deriving DecidableEq, Repr

/-- The `params.push` expression of `ASTParser.extractParameters`: the
`{type, name}` record built from one parameter child. -/
def paramOf (code : String) (child : Node) : String × String :=
  ( match childForFieldName child "type" with
    | some typeNode => getNodeText (some typeNode) code
    | none => "unknown"
  , match childForFieldName child "name" with
    | some nameNode => getNodeText (some nameNode) code
    | none => "unknown" )

/-- One iteration of the loop in `ASTParser.extractParameters`: push an
entry exactly when the child is typed `formal_parameter` or `parameter`. -/
def paramStep (code : String) (params : List (String × String)) (child : Node) :
    List (String × String) :=
  if child.type = "formal_parameter" ∨ child.type = "parameter" then
    params ++ [paramOf code child]
  else params

/-- `ASTParser.extractParameters`: absent parameter-list node yields `[]`;
otherwise a loop over the children pushing one entry per child typed
`formal_parameter` or `parameter`. -/
def extractParameters (paramsNode : Option Node) (code : String) :
    List (String × String) :=
  match paramsNode with
  | none => []
  | some pn => pn.children.foldl (paramStep code) []

/-- `ASTParser.extractReturnType`. -/
def extractReturnType (node : Node) (code : String) : String :=
  match childForFieldName node "type" with
  | some typeNode => getNodeText (some typeNode) code
  | none => "void"

/-- The loop body of `ASTParser.extractVisibility` over the direct
children. -/
def extractVisibilityLoop (code : String) : List Node → String
  | [] => "package"
  | c :: cs =>
      if c.type = "modifiers" then
        let text := getNodeText (some c) code
        if strIncludes text "public" then "public"
        else if strIncludes text "private" then "private"
        else if strIncludes text "protected" then "protected"
        else extractVisibilityLoop code cs
      else extractVisibilityLoop code cs

/-- `ASTParser.extractVisibility`. -/
def extractVisibility (node : Node) (code : String) : String :=
  extractVisibilityLoop code node.children

/-- `ASTParser.extractFunctionMetadata`: `none` models the `null` return for
a missing (falsy, i.e. empty) name. -/
def extractFunctionMetadata (node : Node) (code : String) :
    Option FunctionMetadata :=
  let name := getNodeText (childForFieldName node "name") code
  if name = "" then none
  else
    some
      { name := name
        signature := trimChars (beforeBrace (getNodeText (some node) code))
        params := extractParameters (childForFieldName node "parameters") code
        returnType := extractReturnType node code
        lineStart := node.startRow + 1
        lineEnd := node.endRow + 1
        visibility := extractVisibility node code
        complexity := calculateComplexity node }

/-- The body of `ASTParser.walkTree` before its child loop: the three
sequential `if` statements that classify the node standing at `node`
(function-like, class declaration, import) and push into the analysis. -/
def visitNode (n : Node) (code : String) (analysis : FileAnalysis) :
    FileAnalysis :=
  let a1 :=
    if n.type = "method_declaration" ∨ n.type = "function_declaration" then
      match extractFunctionMetadata n code with
      | some fm => { analysis with functions := analysis.functions ++ [fm] }
      | none => analysis
    else analysis
  let a2 :=
    if n.type = "class_declaration" then
      let className := getNodeText (childForFieldName n "name") code
      if className = "" then a1
      else { a1 with classes := a1.classes ++ [className] }
    else a1
  if n.type = "import_declaration" ∨ n.type = "import_statement" then
    let importText := getNodeText (some n) code
    if importText = "" then a2
    else { a2 with imports := a2.imports ++ [importText] }
  else a2

mutual

/-- `ASTParser.walkTree`: the mutation of `analysis` is modelled by state
passing; the node is classified (function-like, class, import) by
`visitNode` and then every child is walked in order. -/
def walkTree : Node → String → FileAnalysis → FileAnalysis
  | n@(.mk _ _ cs _ _ _ _), code, analysis =>
      walkTreeList cs code (visitNode n code analysis)

/-- The `for (const child of node.children)` loop of `walkTree`. -/
def walkTreeList : List Node → String → FileAnalysis → FileAnalysis
  | [], _, a => a
  | c :: cs, code, a => walkTreeList cs code (walkTree c code a)

end

/-- A registered parser; `parse` returns `none` when the underlying
tree-sitter parse throws. -/
structure ParserHandle : Type where
  parse : String → Option Node

/-- The `parsers` map of `ASTParser`, keyed by language id. -/
def Registry : Type := List (String × ParserHandle)

/-- `this.parsers.get(language)`. -/
def registryGet (ps : Registry) (language : String) : Option ParserHandle :=
  (List.find? (fun p => p.1 == language) ps).map (fun p => p.2)

/-- `ASTParser.parseFile`: absent parser or a parse exception yields `null`;
otherwise a fresh `FileAnalysis` populated by one `walkTree` from the root. -/
def parseFile (ps : Registry) (code language : String) : Option FileAnalysis :=
  match registryGet ps language with
  | none => none
  | some p =>
      match p.parse code with
      | none => none
      | some rootNode =>
          some (walkTree rootNode code
            { fileName := ""
              language := language
              functions := []
              classes := []
              imports := [] })

/-- The `find` in `extractCurrentFunctionMetadata`: the first recorded
function whose inclusive `[lineStart, lineEnd]` range contains the (1-based)
current line. -/
def findEnclosingFunction (analysis : FileAnalysis) (currentLine : Nat) :
    Option FunctionMetadata :=
  analysis.functions.find?
    (fun f => decide (f.lineStart ≤ currentLine ∧ currentLine ≤ f.lineEnd))

/-- Node's `path.basename` for POSIX-style separators: the part of the path
after the last slash (the whole path when there is none). -/
def basename (p : String) : String :=
  String.mk ((p.data.reverse.takeWhile (fun c => c != '/')).reverse)

/-- The `CodebaseIndex` record: the `files` Map is an association list in
insertion order. -/
structure CodebaseIndex where
  files : List (String × FileAnalysis)
  totalFunctions : Nat
  totalClasses : Nat
deriving DecidableEq, Repr

/-- JavaScript `Map.prototype.set`: replace in place when the key is
present, append otherwise. -/
def mapSet (m : List (String × FileAnalysis)) (k : String) (v : FileAnalysis) :
    List (String × FileAnalysis) :=
  match m with
  | [] => [(k, v)]
  | p :: rest => if p.1 = k then (k, v) :: rest else p :: mapSet rest k v

/-- JavaScript `Map.prototype.get` on the model. -/
def mapGet (m : List (String × FileAnalysis)) (k : String) :
    Option FileAnalysis :=
  (m.find? (fun p => p.1 == k)).map (fun p => p.2)

/-- The fresh index built by the `CodebaseIndexer` constructor. -/
def emptyIndex : CodebaseIndex :=
  { files := [], totalFunctions := 0, totalClasses := 0 }

/-- `CodebaseIndexer.indexFile`: the document read is modelled by handing the
path, text and language id directly; a read failure or a `null` parse leaves
the index untouched, and a successful parse stores the analysis (with
`fileName` set to the base name) and adds its counts to the running totals. -/
def indexFile (ps : Registry) (idx : CodebaseIndex)
    (path code language : String) : CodebaseIndex :=
  match parseFile ps code language with
  | none => idx
  | some analysis0 =>
      let analysis := { analysis0 with fileName := basename path }
      { files := mapSet idx.files path analysis
        totalFunctions := idx.totalFunctions + analysis.functions.length
        totalClasses := idx.totalClasses + analysis.classes.length }

/-- `CodebaseIndexer.indexWorkspace`: the `findFiles` enumeration is modelled
by the given list of `(path, text, language)` triples, each indexed in order
into the indexer's persistent index. -/
def indexWorkspace (ps : Registry) (idx : CodebaseIndex)
    (docs : List (String × String × String)) : CodebaseIndex :=
  docs.foldl (fun i d => indexFile ps i d.1 d.2.1 d.2.2) idx

/-- Sum of `functions.length` over every entry of the files map. -/
def sumFunctions (m : List (String × FileAnalysis)) : Nat :=
  (m.map (fun p => p.2.functions.length)).sum

/-- Sum of `classes.length` over every entry of the files map. -/
def sumClasses (m : List (String × FileAnalysis)) : Nat :=
  (m.map (fun p => p.2.classes.length)).sum

/-- The running totals agree with the files map. -/
def consistentTotals (idx : CodebaseIndex) : Prop :=
  idx.totalFunctions = sumFunctions idx.files ∧
  idx.totalClasses = sumClasses idx.files

mutual

/-- Pre-order listing of a subtree: the node, then its children's subtrees
in order — the visit order of `walkTree`. -/
def preorder : Node → List Node
  | n@(.mk _ _ cs _ _ _ _) => n :: preorderList cs

/-- Pre-order listing of a forest. -/
def preorderList : List Node → List Node
  | [] => []
  | c :: cs => preorder c ++ preorderList cs

end

/-- The `FunctionMetadata` (if any) that `walkTree` appends when standing on
node `n`: present exactly when `n` is function-like and named. -/
def funcEntry (code : String) (n : Node) : Option FunctionMetadata :=
  if n.type = "method_declaration" ∨ n.type = "function_declaration" then
    extractFunctionMetadata n code
  else none

/-- The class name (if any) that `walkTree` appends when standing on `n`. -/
def classEntry (code : String) (n : Node) : Option String :=
  if n.type = "class_declaration" then
    let className := getNodeText (childForFieldName n "name") code
    if className = "" then none else some className
  else none

/-- The import text (if any) that `walkTree` appends when standing on `n`. -/
def importEntry (code : String) (n : Node) : Option String :=
  if n.type = "import_declaration" ∨ n.type = "import_statement" then
    let importText := getNodeText (some n) code
    if importText = "" then none else some importText
  else none

/-- The number of proper descendants of `n` (nodes of the children's
subtrees) whose type is classified as a branching construct. -/
def branchDescCount (n : Node) : Nat :=
  ((preorderList n.children).filter
    (fun m => complexityNodes.contains m.type)).length

/-! ## Characterization lemmas for the tree walk -/

theorem visitNode_eq (n : Node) (code : String) (a : FileAnalysis) :
    visitNode n code a =
      { a with
        functions := a.functions ++ (funcEntry code n).toList
        classes := a.classes ++ (classEntry code n).toList
        imports := a.imports ++ (importEntry code n).toList } := by
  unfold visitNode funcEntry classEntry importEntry
  by_cases h1 : n.type = "method_declaration" ∨ n.type = "function_declaration" <;>
    by_cases h2 : n.type = "class_declaration" <;>
      by_cases h3 : n.type = "import_declaration" ∨ n.type = "import_statement" <;>
        rcases hfm : extractFunctionMetadata n code with _ | fm <;>
          by_cases hc : getNodeText (childForFieldName n "name") code = "" <;>
            by_cases hi : getNodeText (some n) code = "" <;>
              simp [h1, h2, h3, hc, hi]

mutual

theorem walkTree_spec : ∀ (n : Node) (code : String) (a : FileAnalysis),
    walkTree n code a =
      { a with
        functions := a.functions ++ (preorder n).filterMap (funcEntry code)
        classes := a.classes ++ (preorder n).filterMap (classEntry code)
        imports := a.imports ++ (preorder n).filterMap (importEntry code) }
  | .mk t fs cs si ei sr er, code, a => by
      rw [walkTree, walkTreeList_spec cs code, visitNode_eq, preorder]
      simp [List.filterMap_cons, List.append_assoc]
      rcases funcEntry code (Node.mk t fs cs si ei sr er) with _ | fm <;>
        rcases classEntry code (Node.mk t fs cs si ei sr er) with _ | cn <;>
          rcases importEntry code (Node.mk t fs cs si ei sr er) with _ | im <;>
            simp

theorem walkTreeList_spec : ∀ (cs : List Node) (code : String) (a : FileAnalysis),
    walkTreeList cs code a =
      { a with
        functions := a.functions ++ (preorderList cs).filterMap (funcEntry code)
        classes := a.classes ++ (preorderList cs).filterMap (classEntry code)
        imports := a.imports ++ (preorderList cs).filterMap (importEntry code) }
  | [], code, a => by simp [walkTreeList, preorderList]
  | c :: cs, code, a => by
      rw [walkTreeList, walkTree_spec c code, walkTreeList_spec cs code]
      simp [preorderList, List.filterMap_append, List.append_assoc]

end

mutual

theorem countComplexity_eq : ∀ n : Node,
    countComplexity n =
      ((preorder n).filter (fun m => complexityNodes.contains m.type)).length
  | .mk t fs cs si ei sr er => by
      rw [countComplexity, countComplexityList_eq cs, preorder]
      by_cases h : complexityNodes.contains
          (Node.type (Node.mk t fs cs si ei sr er)) = true <;>
        simp_all [Node.type, List.filter_cons, Nat.add_comm]

theorem countComplexityList_eq : ∀ cs : List Node,
    countComplexityList cs =
      ((preorderList cs).filter (fun m => complexityNodes.contains m.type)).length
  | [] => by simp [countComplexityList, preorderList]
  | c :: cs => by
      rw [countComplexityList, countComplexity_eq c, countComplexityList_eq cs,
        preorderList]
      simp [List.filter_append]

end

theorem countComplexity_unfold (n : Node) :
    countComplexity n =
      (if complexityNodes.contains n.type then 1 else 0) +
        countComplexityList n.children := by
  cases n
  rw [countComplexity]
  rfl

theorem countComplexityList_append (xs ys : List Node) :
    countComplexityList (xs ++ ys) =
      countComplexityList xs + countComplexityList ys := by
  induction xs with
  | nil => simp [countComplexityList]
  | cons c cs ih => simp [countComplexityList, ih, Nat.add_assoc]

/-! ## Claim theorems -/

/-- C1: for every function-like node (type `method_declaration` or
`function_declaration`), the complexity returned by
`ASTParser.calculateComplexity` equals 1 plus the number of descendant nodes
classified as branching constructs; hence complexity is at least 1, a body
with zero branching constructs scores exactly 1, and inserting one
additional `if`/`for`/`while`/`case`/`catch` construct (a branching node
whose own subtree holds no further branching nodes) anywhere at the top level
of an otherwise-identical body raises the score by exactly 1. -/
theorem complexity_scorer_correct (t : String) (fs : List (String × Node))
    (cs1 cs2 : List Node) (si ei sr er : Nat) (br : Node)
    (hfn : t = "method_declaration" ∨ t = "function_declaration")
    (hbr : complexityNodes.contains br.type = true)
    (hbody : countComplexityList br.children = 0) :
    calculateComplexity (Node.mk t fs (cs1 ++ cs2) si ei sr er) =
      1 + branchDescCount (Node.mk t fs (cs1 ++ cs2) si ei sr er) ∧
    1 ≤ calculateComplexity (Node.mk t fs (cs1 ++ cs2) si ei sr er) ∧
    (branchDescCount (Node.mk t fs (cs1 ++ cs2) si ei sr er) = 0 →
      calculateComplexity (Node.mk t fs (cs1 ++ cs2) si ei sr er) = 1) ∧
    calculateComplexity (Node.mk t fs (cs1 ++ br :: cs2) si ei sr er) =
      calculateComplexity (Node.mk t fs (cs1 ++ cs2) si ei sr er) + 1 := by
  have hroot : complexityNodes.contains t = false := by
    rcases hfn with h | h <;> subst h <;> decide
  have hbd : ∀ cs : List Node,
      branchDescCount (Node.mk t fs cs si ei sr er) = countComplexityList cs := by
    intro cs
    rw [branchDescCount, countComplexityList_eq]
    rfl
  have hroot2 : t ∉ complexityNodes := by simpa using hroot
  have hcalc : ∀ cs : List Node,
      calculateComplexity (Node.mk t fs cs si ei sr er) =
        1 + countComplexityList cs := by
    intro cs
    rw [calculateComplexity, countComplexity_unfold]
    simp [Node.type, Node.children, hroot2]
  have hbr1 : countComplexity br = 1 := by
    rw [countComplexity_unfold, hbr, hbody]
    simp
  have hins : countComplexityList (cs1 ++ br :: cs2) =
      countComplexityList (cs1 ++ cs2) + 1 := by
    rw [countComplexityList_append, countComplexityList_append,
      countComplexityList, hbr1]
    omega
  refine ⟨?_, ?_, ?_, ?_⟩
  · rw [hcalc, hbd]
  · rw [hcalc]
    omega
  · rw [hcalc, hbd]
    omega
  · rw [hcalc, hcalc, hins]
    omega

/-- Concrete instance of `complexity_scorer_correct`: a `method_declaration`
with an empty body, and a bare `if_statement` as the inserted construct. -/
theorem complexity_scorer_correct_witness :
    (("method_declaration" : String) = "method_declaration" ∨
      ("method_declaration" : String) = "function_declaration") ∧
    complexityNodes.contains (Node.type (Node.mk "if_statement" [] [] 0 0 0 0)) = true ∧
    countComplexityList (Node.children (Node.mk "if_statement" [] [] 0 0 0 0)) = 0 ∧
    (calculateComplexity (Node.mk "method_declaration" [] ([] ++ []) 0 0 0 0) =
        1 + branchDescCount (Node.mk "method_declaration" [] ([] ++ []) 0 0 0 0) ∧
      1 ≤ calculateComplexity (Node.mk "method_declaration" [] ([] ++ []) 0 0 0 0) ∧
      (branchDescCount (Node.mk "method_declaration" [] ([] ++ []) 0 0 0 0) = 0 →
        calculateComplexity (Node.mk "method_declaration" [] ([] ++ []) 0 0 0 0) = 1) ∧
      calculateComplexity
          (Node.mk "method_declaration" []
            ([] ++ Node.mk "if_statement" [] [] 0 0 0 0 :: []) 0 0 0 0) =
        calculateComplexity (Node.mk "method_declaration" [] ([] ++ []) 0 0 0 0) + 1) :=
  ⟨Or.inl rfl, by decide, by decide,
    complexity_scorer_correct "method_declaration" [] [] [] 0 0 0 0
      (Node.mk "if_statement" [] [] 0 0 0 0) (Or.inl rfl) (by decide) (by decide)⟩

/-- Is the child a parameter node (the two node types the extractor's table
recognizes as parameters)? -/
def isParamNode (c : Node) : Bool :=
  decide (c.type = "formal_parameter" ∨ c.type = "parameter")

theorem paramStep_foldl (code : String) (cs : List Node)
    (acc : List (String × String)) :
    cs.foldl (paramStep code) acc =
      acc ++ (cs.filter isParamNode).map (paramOf code) := by
  induction cs generalizing acc with
  | nil => simp
  | cons c cs ih =>
      by_cases h : c.type = "formal_parameter" ∨ c.type = "parameter" <;>
        simp [paramStep, isParamNode, h, ih, List.filter_cons]

/-- C3: `ASTParser.extractParameters` yields exactly one `{type, name}` entry
per parameter node of the parameter list, in source order (one entry per
child the classifier recognizes as a parameter, none dropped), with `type`
and `name` each defaulting to the literal string `"unknown"` when the
grammar supplies no such field, and an absent parameter-list child yields
the empty sequence rather than an error. -/
theorem extract_parameters_correct (pn : Node) (code : String) :
    extractParameters none code = [] ∧
    extractParameters (some pn) code =
      (pn.children.filter isParamNode).map (paramOf code) ∧
    (extractParameters (some pn) code).length =
      (pn.children.filter isParamNode).length ∧
    (∀ c : Node, childForFieldName c "type" = none →
      (paramOf code c).1 = "unknown") ∧
    (∀ c : Node, childForFieldName c "name" = none →
      (paramOf code c).2 = "unknown") := by
  refine ⟨rfl, ?_, ?_, ?_, ?_⟩
  · rw [extractParameters, paramStep_foldl]
    simp
  · rw [extractParameters, paramStep_foldl]
    simp
  · intro c h
    simp [paramOf, h]
  · intro c h
    simp [paramOf, h]

/-- The source text for the parameter-extraction witness. -/
def demoParamsCode : String := "int x"

/-- A parameter list holding a fully annotated `formal_parameter`, a comma
token, and a bare `parameter` carrying no fields. -/
def demoParamsNode : Node :=
  Node.mk "formal_parameters" []
    [ Node.mk "formal_parameter"
        [("type", Node.mk "primitive_type" [] [] 0 3 0 0),
         ("name", Node.mk "identifier" [] [] 4 5 0 0)] [] 0 5 0 0
    , Node.mk "," [] [] 3 4 0 0
    , Node.mk "parameter" [] [] 0 0 0 0 ] 0 5 0 0

/-- Concrete instance of `extract_parameters_correct`: the comma token is
skipped, both parameter nodes appear in order, and the field-less
`parameter` defaults to `("unknown", "unknown")`. -/
theorem extract_parameters_correct_witness :
    (extractParameters none demoParamsCode = [] ∧
      extractParameters (some demoParamsNode) demoParamsCode =
        (demoParamsNode.children.filter isParamNode).map (paramOf demoParamsCode) ∧
      (extractParameters (some demoParamsNode) demoParamsCode).length =
        (demoParamsNode.children.filter isParamNode).length ∧
      (∀ c : Node, childForFieldName c "type" = none →
        (paramOf demoParamsCode c).1 = "unknown") ∧
      (∀ c : Node, childForFieldName c "name" = none →
        (paramOf demoParamsCode c).2 = "unknown")) ∧
    childForFieldName (Node.mk "parameter" [] [] 0 0 0 0) "type" = none ∧
    extractParameters (some demoParamsNode) demoParamsCode =
      [("int", "x"), ("unknown", "unknown")] :=
  ⟨extract_parameters_correct demoParamsNode demoParamsCode, rfl, by decide⟩

/-- Does the text of `c` contain any of the three visibility-modifier
substrings checked by `extractVisibility`? -/
def modMatchVis (code : String) (c : Node) : Bool :=
  strIncludes (getNodeText (some c) code) "public" ||
    strIncludes (getNodeText (some c) code) "private" ||
      strIncludes (getNodeText (some c) code) "protected"

/-- Position of the first occurrence of `sub` inside `s` (character index),
absent when `sub` does not occur. -/
def firstSubPos (s sub : String) : Option Nat :=
  (List.range (s.data.length + 1)).find?
    (fun i => sub.data == (s.data.drop i).take sub.data.length)

theorem extractVisibilityLoop_cons (code : String) (c : Node) (cs : List Node) :
    extractVisibilityLoop code (c :: cs) =
      if c.type = "modifiers" ∧ modMatchVis code c = true then
        (if strIncludes (getNodeText (some c) code) "public" then "public"
         else if strIncludes (getNodeText (some c) code) "private" then "private"
         else "protected")
      else extractVisibilityLoop code cs := by
  by_cases h1 : c.type = "modifiers" <;>
    by_cases hp : strIncludes (getNodeText (some c) code) "public" = true <;>
      by_cases hq : strIncludes (getNodeText (some c) code) "private" = true <;>
        by_cases hr : strIncludes (getNodeText (some c) code) "protected" = true <;>
          simp [extractVisibilityLoop, modMatchVis, h1, hp, hq, hr]

theorem extractVisibilityLoop_mem (code : String) (cs : List Node) :
    extractVisibilityLoop code cs ∈
      (["public", "private", "protected", "package"] : List String) := by
  induction cs with
  | nil => simp [extractVisibilityLoop]
  | cons c cs ih =>
      rw [extractVisibilityLoop_cons]
      split_ifs <;> simp_all

theorem extractVisibilityLoop_package (code : String) (cs : List Node)
    (h : ∀ c ∈ cs, c.type = "modifiers" → modMatchVis code c = false) :
    extractVisibilityLoop code cs = "package" := by
  induction cs with
  | nil => rfl
  | cons c cs ih =>
      have hcs : ∀ b ∈ cs, b.type = "modifiers" → modMatchVis code b = false :=
        fun b hb => h b (List.mem_cons_of_mem c hb)
      rw [extractVisibilityLoop_cons, if_neg, ih hcs]
      rintro ⟨h1, h2⟩
      rw [h c (List.mem_cons_self c cs) h1] at h2
      exact Bool.false_ne_true h2

theorem extractVisibilityLoop_first (code : String) (l1 l2 : List Node)
    (c : Node) (hc : c.type = "modifiers") (hm : modMatchVis code c = true)
    (hpre : ∀ b ∈ l1, b.type = "modifiers" → modMatchVis code b = false) :
    extractVisibilityLoop code (l1 ++ c :: l2) =
      (if strIncludes (getNodeText (some c) code) "public" then "public"
       else if strIncludes (getNodeText (some c) code) "private" then "private"
       else "protected") := by
  induction l1 with
  | nil =>
      rw [List.nil_append, extractVisibilityLoop_cons, if_pos ⟨hc, hm⟩]
  | cons b l1 ih =>
      have hb : b.type = "modifiers" → modMatchVis code b = false :=
        hpre b (List.mem_cons_self b l1)
      have hrest : ∀ x ∈ l1, x.type = "modifiers" → modMatchVis code x = false :=
        fun x hx => hpre x (List.mem_cons_of_mem b hx)
      rw [List.cons_append, extractVisibilityLoop_cons, if_neg, ih hrest]
      rintro ⟨h1, h2⟩
      rw [hb h1] at h2
      exact Bool.false_ne_true h2

/-- C4 (amended): `ASTParser.extractVisibility` always yields one of
`public`/`private`/`protected`/`package`; it scans the direct children in
source order for `modifiers` nodes and yields `package` when no `modifiers`
child contains any of the three substrings.  The first `modifiers` child (in
source order) containing at least one of the substrings decides the result,
but by the fixed priority `public`, then `private`, then `protected` — not
by which substring occurs first in the source text. -/
theorem extract_visibility_priority (node : Node) (code : String) :
    extractVisibility node code ∈
      (["public", "private", "protected", "package"] : List String) ∧
    ((∀ c ∈ node.children, c.type = "modifiers" → modMatchVis code c = false) →
      extractVisibility node code = "package") ∧
    (∀ (l1 l2 : List Node) (c : Node), node.children = l1 ++ c :: l2 →
      c.type = "modifiers" → modMatchVis code c = true →
      (∀ b ∈ l1, b.type = "modifiers" → modMatchVis code b = false) →
      extractVisibility node code =
        (if strIncludes (getNodeText (some c) code) "public" then "public"
         else if strIncludes (getNodeText (some c) code) "private" then "private"
         else "protected")) := by
  refine ⟨extractVisibilityLoop_mem code node.children,
    extractVisibilityLoop_package code node.children, ?_⟩
  intro l1 l2 c hsplit hc hm hpre
  rw [extractVisibility, hsplit]
  exact extractVisibilityLoop_first code l1 l2 c hc hm hpre

/-- Source text of the counterexample for the source-order visibility
claim. -/
def visCode : String := "protected public"

/-- A `modifiers` node spanning the whole of `visCode`. -/
def visModNode : Node := Node.mk "modifiers" [] [] 0 16 0 0

/-- A method declaration whose only child is the `modifiers` node. -/
def visFuncNode : Node := Node.mk "method_declaration" [] [visModNode] 0 16 0 0

/-- Counterexample to C4 as stated: in the modifiers text
`"protected public"` the substring `protected` occurs first (position 0,
before `public` at position 10), yet `extractVisibility` answers `public`,
because the code tests the three substrings in the fixed order
`public`/`private`/`protected` rather than by source position. -/
theorem extract_visibility_counterexample :
    firstSubPos (getNodeText (some visModNode) visCode) "protected" = some 0 ∧
    firstSubPos (getNodeText (some visModNode) visCode) "public" = some 10 ∧
    extractVisibility visFuncNode visCode = "public" ∧
    extractVisibility visFuncNode visCode ≠ "protected" := by decide

/-- The modifiers text for the visibility witness. -/
def visWitnessCode : String := "private static"

/-- A method declaration whose modifiers child reads `private static`. -/
def visWitnessNode : Node :=
  Node.mk "method_declaration" [] [Node.mk "modifiers" [] [] 0 14 0 0] 0 14 0 0

/-- Concrete instance of `extract_visibility_priority`: one `modifiers`
child with text `private static` resolves to `private`. -/
theorem extract_visibility_priority_witness :
    (Node.type (Node.mk "modifiers" [] [] 0 14 0 0) = "modifiers") ∧
    modMatchVis visWitnessCode (Node.mk "modifiers" [] [] 0 14 0 0) = true ∧
    extractVisibility visWitnessNode visWitnessCode =
      (if strIncludes
            (getNodeText (some (Node.mk "modifiers" [] [] 0 14 0 0)) visWitnessCode)
            "public" then "public"
       else if strIncludes
            (getNodeText (some (Node.mk "modifiers" [] [] 0 14 0 0)) visWitnessCode)
            "private" then "private"
       else "protected") ∧
    extractVisibility visWitnessNode visWitnessCode = "private" :=
  ⟨rfl, by decide,
    (extract_visibility_priority visWitnessNode visWitnessCode).2.2
      [] [] (Node.mk "modifiers" [] [] 0 14 0 0) rfl rfl (by decide)
      (by intro b hb; simp at hb),
    by decide⟩

theorem find_first_in_split (p : FunctionMetadata → Bool)
    (pre post : List FunctionMetadata) (f : FunctionMetadata)
    (hf : p f = true) (hpre : ∀ g ∈ pre, p g = false) :
    (pre ++ f :: post).find? p = some f := by
  induction pre with
  | nil => simp [List.find?_cons_of_pos, hf]
  | cons g gs ih =>
      rw [List.cons_append,
        List.find?_cons_of_neg _ (by simp [hpre g (List.mem_cons_self g gs)])]
      exact ih fun b hb => hpre b (List.mem_cons_of_mem g hb)

/-- C5 (amended): for every function `f` recorded in a `FileAnalysis` with a
well-formed line range, the `find` of `extractCurrentFunctionMetadata`
applied at `f.lineStart` and at `f.lineEnd` both return `f`, provided no
function recorded earlier in the `functions` sequence has an inclusive line
range that also contains that boundary line (the `find` returns the first
match in sequence order, so an earlier enclosing function — e.g. the outer
function of a nested one — wins otherwise). -/
theorem find_enclosing_roundtrip (a : FileAnalysis)
    (pre post : List FunctionMetadata) (f : FunctionMetadata)
    (hsplit : a.functions = pre ++ f :: post)
    (hle : f.lineStart ≤ f.lineEnd)
    (hpre1 : ∀ g ∈ pre, ¬(g.lineStart ≤ f.lineStart ∧ f.lineStart ≤ g.lineEnd))
    (hpre2 : ∀ g ∈ pre, ¬(g.lineStart ≤ f.lineEnd ∧ f.lineEnd ≤ g.lineEnd)) :
    findEnclosingFunction a f.lineStart = some f ∧
    findEnclosingFunction a f.lineEnd = some f := by
  unfold findEnclosingFunction
  rw [hsplit]
  constructor
  · exact find_first_in_split _ pre post f
      (decide_eq_true ⟨Nat.le_refl _, hle⟩)
      (fun g hg => decide_eq_false (hpre1 g hg))
  · exact find_first_in_split _ pre post f
      (decide_eq_true ⟨hle, Nat.le_refl _⟩)
      (fun g hg => decide_eq_false (hpre2 g hg))

/-- Source text for the nested-function demo file. -/
def nestCode : String := "fg"

/-- A nested named function `g` spanning lines 3–5. -/
def nestInner : Node :=
  Node.mk "function_declaration"
    [("name", Node.mk "identifier" [] [] 1 2 2 2)] [] 1 2 2 4

/-- An outer named function `f` spanning lines 1–10, containing
`nestInner`. -/
def nestOuter : Node :=
  Node.mk "function_declaration"
    [("name", Node.mk "identifier" [] [] 0 1 0 0)] [nestInner] 0 2 0 9

/-- A registry whose JavaScript parser yields the nested-function tree. -/
def nestRegistry : Registry :=
  [("javascript", { parse := fun _ => some nestOuter })]

/-- The metadata the extractor records for the outer function. -/
def nestOuterMeta : FunctionMetadata :=
  { name := "f", signature := "fg", params := [], returnType := "void"
    lineStart := 1, lineEnd := 10, visibility := "package", complexity := 1 }

/-- The metadata the extractor records for the nested function. -/
def nestInnerMeta : FunctionMetadata :=
  { name := "g", signature := "g", params := [], returnType := "void"
    lineStart := 3, lineEnd := 5, visibility := "package", complexity := 1 }

/-- The analysis `parseFile` produces for the nested-function demo. -/
def nestAnalysis : FileAnalysis :=
  { fileName := "", language := "javascript"
    functions := [nestOuterMeta, nestInnerMeta], classes := [], imports := [] }

/-- Counterexample to C5 as stated: in the parser-produced analysis of a
file whose function `g` (lines 3–5) is nested inside `f` (lines 1–10), the
lookup at `g.lineStart` returns `f`, not `g`, because the `find` takes the
first recorded function whose range contains the line. -/
theorem find_enclosing_roundtrip_counterexample :
    parseFile nestRegistry nestCode "javascript" = some nestAnalysis ∧
    nestInnerMeta ∈ nestAnalysis.functions ∧
    nestInnerMeta.lineStart = 3 ∧
    findEnclosingFunction nestAnalysis 3 = some nestOuterMeta ∧
    nestOuterMeta ≠ nestInnerMeta := by decide

/-- Concrete instance of `find_enclosing_roundtrip`: the outer function of
the nested-function demo is first in the sequence, so the round trip holds
for it at both boundary lines. -/
theorem find_enclosing_roundtrip_witness :
    nestAnalysis.functions = [] ++ nestOuterMeta :: [nestInnerMeta] ∧
    nestOuterMeta.lineStart ≤ nestOuterMeta.lineEnd ∧
    (findEnclosingFunction nestAnalysis nestOuterMeta.lineStart =
        some nestOuterMeta ∧
      findEnclosingFunction nestAnalysis nestOuterMeta.lineEnd =
        some nestOuterMeta) :=
  ⟨rfl, by decide,
    find_enclosing_roundtrip nestAnalysis [] [nestInnerMeta] nestOuterMeta rfl
      (by decide) (by intro g hg; simp at hg) (by intro g hg; simp at hg)⟩

/-- The fresh analysis record `parseFile` creates before walking. -/
def freshAnalysis (lang : String) : FileAnalysis :=
  { fileName := "", language := lang, functions := [], classes := []
    imports := [] }

/-- C6: a function-like node whose name resolves to the empty text produces
no `FunctionMetadata`, yet `walkTree` still recurses into its children, so
the functions recorded are exactly those contributed by the descendant
subtrees — in particular every named function-like node nested anywhere
inside the unnamed declaration is still discovered and appears in the
`functions` sequence. -/
theorem unnamed_function_children_traversed (t : String)
    (fs : List (String × Node)) (cs : List Node) (si ei sr er : Nat)
    (code : String) (a : FileAnalysis)
    (_hfn : t = "method_declaration" ∨ t = "function_declaration")
    (hname : getNodeText
        (childForFieldName (Node.mk t fs cs si ei sr er) "name") code = "") :
    (walkTree (Node.mk t fs cs si ei sr er) code a).functions =
      a.functions ++ (preorderList cs).filterMap (funcEntry code) ∧
    (∀ d ∈ preorderList cs, ∀ fm, funcEntry code d = some fm →
      fm ∈ (walkTree (Node.mk t fs cs si ei sr er) code a).functions) := by
  have hnone : extractFunctionMetadata (Node.mk t fs cs si ei sr er) code =
      none := by
    unfold extractFunctionMetadata
    simp [hname]
  have hfe : funcEntry code (Node.mk t fs cs si ei sr er) = none := by
    unfold funcEntry
    simp [hnone]
  have hw := walkTree_spec (Node.mk t fs cs si ei sr er) code a
  have hfns : (walkTree (Node.mk t fs cs si ei sr er) code a).functions =
      a.functions ++ (preorderList cs).filterMap (funcEntry code) := by
    rw [hw]
    simp [preorder, List.filterMap_cons, hfe]
  refine ⟨hfns, ?_⟩
  intro d hd fm hfm
  rw [hfns]
  exact List.mem_append_right _ (List.mem_filterMap.mpr ⟨d, hd, hfm⟩)

/-- An unnamed function-like declaration (no `name` field) whose body holds
the named nested function `g`. -/
def unnamedOuter : Node :=
  Node.mk "function_declaration" [] [nestInner] 0 2 0 9

/-- Concrete instance of `unnamed_function_children_traversed`: the unnamed
outer declaration contributes nothing, but its nested named function is
still recorded. -/
theorem unnamed_function_children_traversed_witness :
    (("function_declaration" : String) = "method_declaration" ∨
      ("function_declaration" : String) = "function_declaration") ∧
    getNodeText (childForFieldName unnamedOuter "name") nestCode = "" ∧
    ((walkTree unnamedOuter nestCode (freshAnalysis "javascript")).functions =
        (freshAnalysis "javascript").functions ++
          (preorderList [nestInner]).filterMap (funcEntry nestCode) ∧
      (∀ d ∈ preorderList [nestInner], ∀ fm, funcEntry nestCode d = some fm →
        fm ∈ (walkTree unnamedOuter nestCode
          (freshAnalysis "javascript")).functions)) ∧
    (walkTree unnamedOuter nestCode (freshAnalysis "javascript")).functions =
      [nestInnerMeta] :=
  ⟨Or.inr rfl, rfl,
    unnamed_function_children_traversed "function_declaration" [] [nestInner]
      0 2 0 9 nestCode (freshAnalysis "javascript") (Or.inr rfl) rfl,
    by decide⟩

/-- C7: `ASTParser.parseFile` is total on its embedding (the source wraps
the parse in `try`/`catch`, modelled by the parser returning absent): it
answers absent exactly when no parser is registered for the language id or
the registered parser fails on the source, and otherwise it answers the
fully populated analysis obtained by one `walkTree` over the fresh record —
never a partial or garbage `FileAnalysis`. -/
theorem parse_file_absent_on_failure (ps : Registry) (code lang : String) :
    (parseFile ps code lang = none ↔
      registryGet ps lang = none ∨
        ∃ p, registryGet ps lang = some p ∧ p.parse code = none) ∧
    (∀ a, parseFile ps code lang = some a ↔
      ∃ p rootNode, registryGet ps lang = some p ∧
        p.parse code = some rootNode ∧
        a = walkTree rootNode code (freshAnalysis lang)) := by
  constructor
  · rcases hreg : registryGet ps lang with _ | p
    · simp [parseFile, hreg]
    · rcases hp : p.parse code with _ | rootNode
      · simp [parseFile, hreg, hp]
      · simp [parseFile, hreg, hp]
  · intro a
    rcases hreg : registryGet ps lang with _ | p
    · simp [parseFile, hreg]
    · rcases hp : p.parse code with _ | rootNode
      · simp [parseFile, hreg, hp]
      · simp [parseFile, hreg, hp, freshAnalysis, eq_comm]

/-- Concrete instance of `parse_file_absent_on_failure`: the demo registry
has no Python parser, so `parseFile` answers absent for Python; for
JavaScript it answers the fully populated nested-function analysis. -/
theorem parse_file_absent_on_failure_witness :
    registryGet nestRegistry "python" = none ∧
    parseFile nestRegistry nestCode "python" = none ∧
    parseFile nestRegistry nestCode "javascript" = some nestAnalysis :=
  ⟨rfl,
    ((parse_file_absent_on_failure nestRegistry nestCode "python").1).mpr
      (Or.inl rfl),
    by decide⟩

theorem funcEntry_eq_some (code : String) (m : Node) (fm : FunctionMetadata)
    (h : funcEntry code m = some fm) :
    (m.type = "method_declaration" ∨ m.type = "function_declaration") ∧
    extractFunctionMetadata m code = some fm := by
  unfold funcEntry at h
  by_cases hc : m.type = "method_declaration" ∨ m.type = "function_declaration"
  · rw [if_pos hc] at h
    exact ⟨hc, h⟩
  · rw [if_neg hc] at h
    exact absurd h (by simp)

theorem funcEntry_eq_none (code : String) (m : Node)
    (h : m.type ≠ "method_declaration" ∧ m.type ≠ "function_declaration") :
    funcEntry code m = none := by
  unfold funcEntry
  rw [if_neg]
  rintro (h1 | h2)
  · exact h.1 h1
  · exact h.2 h2

theorem classEntry_eq_some (code : String) (m : Node) (cn : String)
    (h : classEntry code m = some cn) :
    m.type = "class_declaration" ∧
    getNodeText (childForFieldName m "name") code = cn := by
  unfold classEntry at h
  by_cases hc : m.type = "class_declaration"
  · rw [if_pos hc] at h
    by_cases hn : getNodeText (childForFieldName m "name") code = ""
    · simp [hn] at h
    · simp only [hn, if_neg, ite_false] at h
      exact ⟨hc, Option.some_injective _ h⟩
  · rw [if_neg hc] at h
    exact absurd h (by simp)

theorem classEntry_eq_none (code : String) (m : Node)
    (h : m.type ≠ "class_declaration") : classEntry code m = none := by
  unfold classEntry
  rw [if_neg h]

theorem importEntry_eq_some (code : String) (m : Node) (im : String)
    (h : importEntry code m = some im) :
    (m.type = "import_declaration" ∨ m.type = "import_statement") ∧
    getNodeText (some m) code = im := by
  unfold importEntry at h
  by_cases hc : m.type = "import_declaration" ∨ m.type = "import_statement"
  · rw [if_pos hc] at h
    by_cases hn : getNodeText (some m) code = ""
    · simp [hn] at h
    · simp only [hn, if_neg, ite_false] at h
      exact ⟨hc, Option.some_injective _ h⟩
  · rw [if_neg hc] at h
    exact absurd h (by simp)

theorem importEntry_eq_none (code : String) (m : Node)
    (h : m.type ≠ "import_declaration" ∧ m.type ≠ "import_statement") :
    importEntry code m = none := by
  unfold importEntry
  rw [if_neg]
  rintro (h1 | h2)
  · exact h.1 h1
  · exact h.2 h2

/-- C8: the node classifier of `walkTree` is one fixed set of node-type
strings for every language: a node contributes a `FunctionMetadata` only if
its type is exactly `method_declaration` or `function_declaration`, a class
name only if its type is exactly `class_declaration`, and an import entry
only if its type is exactly `import_declaration` or `import_statement`;
consequently a tree none of whose nodes carry those type strings (such as a
Python tree using `function_definition`/`class_definition`) contributes no
functions, classes or imports at all. -/
theorem classifier_fixed_node_types (n : Node) (code : String)
    (a : FileAnalysis) :
    ((∀ m ∈ preorder n,
        m.type ≠ "method_declaration" ∧ m.type ≠ "function_declaration") →
      (walkTree n code a).functions = a.functions) ∧
    ((∀ m ∈ preorder n, m.type ≠ "class_declaration") →
      (walkTree n code a).classes = a.classes) ∧
    ((∀ m ∈ preorder n,
        m.type ≠ "import_declaration" ∧ m.type ≠ "import_statement") →
      (walkTree n code a).imports = a.imports) ∧
    (∀ fm ∈ (walkTree n code a).functions, fm ∈ a.functions ∨
      ∃ m ∈ preorder n,
        (m.type = "method_declaration" ∨ m.type = "function_declaration") ∧
        extractFunctionMetadata m code = some fm) ∧
    (∀ cn ∈ (walkTree n code a).classes, cn ∈ a.classes ∨
      ∃ m ∈ preorder n, m.type = "class_declaration" ∧
        getNodeText (childForFieldName m "name") code = cn) ∧
    (∀ im ∈ (walkTree n code a).imports, im ∈ a.imports ∨
      ∃ m ∈ preorder n,
        (m.type = "import_declaration" ∨ m.type = "import_statement") ∧
        getNodeText (some m) code = im) := by
  have hw := walkTree_spec n code a
  refine ⟨?_, ?_, ?_, ?_, ?_, ?_⟩
  · intro h
    rw [hw]
    have hnil : (preorder n).filterMap (funcEntry code) = [] :=
      List.filterMap_eq_nil_iff.mpr fun m hm => funcEntry_eq_none code m (h m hm)
    simp [hnil]
  · intro h
    rw [hw]
    have hnil : (preorder n).filterMap (classEntry code) = [] :=
      List.filterMap_eq_nil_iff.mpr fun m hm => classEntry_eq_none code m (h m hm)
    simp [hnil]
  · intro h
    rw [hw]
    have hnil : (preorder n).filterMap (importEntry code) = [] :=
      List.filterMap_eq_nil_iff.mpr fun m hm => importEntry_eq_none code m (h m hm)
    simp [hnil]
  · intro fm hfm
    rw [hw] at hfm
    rcases List.mem_append.mp hfm with h1 | h2
    · exact Or.inl h1
    · rcases List.mem_filterMap.mp h2 with ⟨m, hm, hme⟩
      rcases funcEntry_eq_some code m fm hme with ⟨ht, hex⟩
      exact Or.inr ⟨m, hm, ht, hex⟩
  · intro cn hcn
    rw [hw] at hcn
    rcases List.mem_append.mp hcn with h1 | h2
    · exact Or.inl h1
    · rcases List.mem_filterMap.mp h2 with ⟨m, hm, hme⟩
      rcases classEntry_eq_some code m cn hme with ⟨ht, hex⟩
      exact Or.inr ⟨m, hm, ht, hex⟩
  · intro im him
    rw [hw] at him
    rcases List.mem_append.mp him with h1 | h2
    · exact Or.inl h1
    · rcases List.mem_filterMap.mp h2 with ⟨m, hm, hme⟩
      rcases importEntry_eq_some code m im hme with ⟨ht, hex⟩
      exact Or.inr ⟨m, hm, ht, hex⟩

/-- The Python-flavoured source text for the classifier witness. -/
def pyCode : String := "def f: pass"

/-- A Python-shaped tree: a `module` holding a `function_definition` and a
`class_definition` — none of the node-type strings the classifier knows. -/
def pyRoot : Node :=
  Node.mk "module" []
    [ Node.mk "function_definition"
        [("name", Node.mk "identifier" [] [] 4 5 0 0)] [] 0 11 0 0
    , Node.mk "class_definition"
        [("name", Node.mk "identifier" [] [] 4 5 0 0)] [] 0 11 0 0 ] 0 11 0 0

/-- Concrete instance of `classifier_fixed_node_types`: the Python-shaped
tree yields empty `functions` and `classes` sequences. -/
theorem classifier_fixed_node_types_witness :
    (∀ m ∈ preorder pyRoot,
      m.type ≠ "method_declaration" ∧ m.type ≠ "function_declaration") ∧
    (walkTree pyRoot pyCode (freshAnalysis "python")).functions =
      (freshAnalysis "python").functions ∧
    (walkTree pyRoot pyCode (freshAnalysis "python")).functions = [] ∧
    (walkTree pyRoot pyCode (freshAnalysis "python")).classes = [] :=
  ⟨by decide,
    (classifier_fixed_node_types pyRoot pyCode (freshAnalysis "python")).1
      (by decide),
    by decide, by decide⟩

/-- Weighted sum over the values of the files map. -/
def sumWith (g : FileAnalysis → Nat) (m : List (String × FileAnalysis)) : Nat :=
  (m.map (fun p => g p.2)).sum

theorem mapGet_cons (p : String × FileAnalysis)
    (rest : List (String × FileAnalysis)) (k : String) :
    mapGet (p :: rest) k = if p.1 = k then some p.2 else mapGet rest k := by
  by_cases hk : p.1 = k
  · simp [mapGet, List.find?, hk]
  · have hb : (p.1 == k) = false := beq_eq_false_iff_ne.mpr hk
    simp [mapGet, List.find?, hb, hk]

theorem sumWith_mapSet (g : FileAnalysis → Nat)
    (m : List (String × FileAnalysis)) (k : String) (v : FileAnalysis) :
    (mapGet m k = none → sumWith g (mapSet m k v) = sumWith g m + g v) ∧
    (∀ old, mapGet m k = some old →
      sumWith g (mapSet m k v) + g old = sumWith g m + g v) := by
  induction m with
  | nil =>
      refine ⟨fun _ => ?_, fun old h => ?_⟩
      · simp [mapSet, sumWith, Nat.add_comm]
      · simp [mapGet] at h
  | cons p rest ih =>
      by_cases hk : p.1 = k
      · refine ⟨fun h => ?_, fun old h => ?_⟩
        · rw [mapGet_cons, if_pos hk] at h
          exact absurd h (by simp)
        · rw [mapGet_cons, if_pos hk] at h
          rw [mapSet, if_pos hk]
          have hold : old = p.2 := (Option.some.inj h).symm
          subst hold
          simp [sumWith]
          omega
      · refine ⟨fun h => ?_, fun old h => ?_⟩
        · rw [mapGet_cons, if_neg hk] at h
          rw [mapSet, if_neg hk]
          have := ih.1 h
          simp [sumWith] at this ⊢
          omega
        · rw [mapGet_cons, if_neg hk] at h
          rw [mapSet, if_neg hk]
          have := ih.2 old h
          simp [sumWith] at this ⊢
          omega

/-- C2 (amended): a rejected file leaves the index untouched; inserting a
path not yet present keeps `totalFunctions`/`totalClasses` equal to the sums
over the `files` map; but on re-indexing a path already present the old
contribution is **not** subtracted — the entry is replaced while both
totals keep the stale contribution, exceeding the map sums by exactly the
replaced entry's function and class counts. -/
theorem index_totals_consistency (ps : Registry) (idx : CodebaseIndex)
    (path code lang : String) (h : consistentTotals idx) :
    (parseFile ps code lang = none → indexFile ps idx path code lang = idx) ∧
    (parseFile ps code lang ≠ none → mapGet idx.files path = none →
      consistentTotals (indexFile ps idx path code lang)) ∧
    (∀ aOld, parseFile ps code lang ≠ none →
      mapGet idx.files path = some aOld →
      (indexFile ps idx path code lang).totalFunctions =
        sumFunctions (indexFile ps idx path code lang).files +
          aOld.functions.length ∧
      (indexFile ps idx path code lang).totalClasses =
        sumClasses (indexFile ps idx path code lang).files +
          aOld.classes.length) := by
  rcases hp : parseFile ps code lang with _ | a
  · refine ⟨fun _ => ?_, fun hne _ => absurd rfl hne,
      fun aOld hne _ => absurd rfl hne⟩
    unfold indexFile
    rw [hp]
  · have hidx : indexFile ps idx path code lang =
        { files := mapSet idx.files path { a with fileName := basename path }
          totalFunctions := idx.totalFunctions + a.functions.length
          totalClasses := idx.totalClasses + a.classes.length } := by
      unfold indexFile
      rw [hp]
    refine ⟨fun hno => absurd hno (by simp), fun _ hfresh => ?_,
      fun aOld _ hold => ?_⟩
    · rw [hidx]
      refine ⟨?_, ?_⟩
      · show idx.totalFunctions + a.functions.length =
          sumFunctions (mapSet idx.files path { a with fileName := basename path })
        have hs2 : sumFunctions
              (mapSet idx.files path { a with fileName := basename path }) =
            sumFunctions idx.files + a.functions.length :=
          (sumWith_mapSet (fun x => x.functions.length) idx.files path
            { a with fileName := basename path }).1 hfresh
        rw [hs2, h.1]
      · show idx.totalClasses + a.classes.length =
          sumClasses (mapSet idx.files path { a with fileName := basename path })
        have hs2 : sumClasses
              (mapSet idx.files path { a with fileName := basename path }) =
            sumClasses idx.files + a.classes.length :=
          (sumWith_mapSet (fun x => x.classes.length) idx.files path
            { a with fileName := basename path }).1 hfresh
        rw [hs2, h.2]
    · rw [hidx]
      refine ⟨?_, ?_⟩
      · show idx.totalFunctions + a.functions.length =
          sumFunctions (mapSet idx.files path { a with fileName := basename path })
            + aOld.functions.length
        have hs2 : sumFunctions
              (mapSet idx.files path { a with fileName := basename path }) +
              aOld.functions.length =
            sumFunctions idx.files + a.functions.length :=
          (sumWith_mapSet (fun x => x.functions.length) idx.files path
            { a with fileName := basename path }).2 aOld hold
        rw [h.1]
        omega
      · show idx.totalClasses + a.classes.length =
          sumClasses (mapSet idx.files path { a with fileName := basename path })
            + aOld.classes.length
        have hs2 : sumClasses
              (mapSet idx.files path { a with fileName := basename path }) +
              aOld.classes.length =
            sumClasses idx.files + a.classes.length :=
          (sumWith_mapSet (fun x => x.classes.length) idx.files path
            { a with fileName := basename path }).2 aOld hold
        rw [h.2]
        omega

/-- The two-step re-index run used by the totals counterexample and
witness. -/
def reindexDocs : List (String × String × String) :=
  [("/w/a.js", nestCode, "javascript"), ("/w/a.js", nestCode, "javascript")]

/-- Counterexample to C2 as stated: indexing the same path twice through the
real loop replaces the single `files` entry but adds its function count to
`totalFunctions` both times — the totals are not corrected by subtracting
the old contribution, so they disagree with the sums over the map. -/
theorem index_totals_counterexample :
    (indexWorkspace nestRegistry emptyIndex reindexDocs).totalFunctions = 4 ∧
    sumFunctions (indexWorkspace nestRegistry emptyIndex reindexDocs).files = 2 ∧
    (indexWorkspace nestRegistry emptyIndex reindexDocs).files.length = 1 := by
  decide

/-- Concrete instance of `index_totals_consistency`: a fresh insertion keeps
the totals consistent, and re-inserting the same path leaves the totals
exceeding the map sums by the replaced entry's two functions. -/
theorem index_totals_consistency_witness :
    consistentTotals emptyIndex ∧
    parseFile nestRegistry nestCode "javascript" ≠ none ∧
    mapGet emptyIndex.files "/w/a.js" = none ∧
    consistentTotals
      (indexFile nestRegistry emptyIndex "/w/a.js" nestCode "javascript") :=
  ⟨⟨rfl, rfl⟩, by decide, rfl,
    (index_totals_consistency nestRegistry emptyIndex "/w/a.js" nestCode
      "javascript" ⟨rfl, rfl⟩).2.1 (by decide) rfl⟩

theorem mapSet_keys_sub (m : List (String × FileAnalysis)) (k k' : String)
    (v : FileAnalysis) (h : k' ∈ m.map Prod.fst) :
    k' ∈ (mapSet m k v).map Prod.fst := by
  induction m with
  | nil => simp at h
  | cons p rest ih =>
      rw [mapSet]
      by_cases hk : p.1 = k
      · rw [if_pos hk]
        simp only [List.map_cons, List.mem_cons] at h ⊢
        rcases h with h | h
        · exact Or.inl (h.trans hk)
        · exact Or.inr h
      · rw [if_neg hk]
        simp only [List.map_cons, List.mem_cons] at h ⊢
        rcases h with h | h
        · exact Or.inl h
        · exact Or.inr (ih h)

theorem indexFile_mono (ps : Registry) (idx : CodebaseIndex)
    (path code lang : String) :
    (∀ k ∈ idx.files.map Prod.fst,
      k ∈ (indexFile ps idx path code lang).files.map Prod.fst) ∧
    idx.totalFunctions ≤ (indexFile ps idx path code lang).totalFunctions ∧
    idx.totalClasses ≤ (indexFile ps idx path code lang).totalClasses := by
  rcases hp : parseFile ps code lang with _ | a
  · have heq : indexFile ps idx path code lang = idx := by
      unfold indexFile
      rw [hp]
    rw [heq]
    exact ⟨fun k hk => hk, Nat.le_refl _, Nat.le_refl _⟩
  · have hidx : indexFile ps idx path code lang =
        { files := mapSet idx.files path { a with fileName := basename path }
          totalFunctions := idx.totalFunctions + a.functions.length
          totalClasses := idx.totalClasses + a.classes.length } := by
      unfold indexFile
      rw [hp]
    rw [hidx]
    exact ⟨fun k hk => mapSet_keys_sub idx.files path k _ hk,
      Nat.le_add_right _ _, Nat.le_add_right _ _⟩

theorem indexWorkspace_mono (ps : Registry)
    (docs : List (String × String × String)) : ∀ idx : CodebaseIndex,
    (∀ k ∈ idx.files.map Prod.fst,
      k ∈ (indexWorkspace ps idx docs).files.map Prod.fst) ∧
    idx.totalFunctions ≤ (indexWorkspace ps idx docs).totalFunctions ∧
    idx.totalClasses ≤ (indexWorkspace ps idx docs).totalClasses := by
  induction docs with
  | nil => exact fun idx => ⟨fun k hk => hk, Nat.le_refl _, Nat.le_refl _⟩
  | cons d rest ih =>
      intro idx
      have hstep : indexWorkspace ps idx (d :: rest) =
          indexWorkspace ps (indexFile ps idx d.1 d.2.1 d.2.2) rest := rfl
      have h1 := indexFile_mono ps idx d.1 d.2.1 d.2.2
      have h2 := ih (indexFile ps idx d.1 d.2.1 d.2.2)
      rw [hstep]
      exact ⟨fun k hk => h2.1 k (h1.1 k hk),
        Nat.le_trans h1.2.1 h2.2.1, Nat.le_trans h1.2.2 h2.2.2⟩

/-- C9: across any sequence of per-file indexing and `indexWorkspace` calls
on one `CodebaseIndexer`, the index only grows: no key ever leaves the
`files` map and the running totals never decrease (every operation only
inserts or overwrites one entry and adds non-negative counts); moreover a
second `indexWorkspace` call continues from — accumulates onto — the index
the first one built, rather than rebuilding it fresh. -/
theorem index_grows_monotonically (ps : Registry) (idx : CodebaseIndex)
    (docs docs2 : List (String × String × String)) (path code lang : String) :
    (∀ k ∈ idx.files.map Prod.fst,
      k ∈ (indexFile ps idx path code lang).files.map Prod.fst) ∧
    idx.totalFunctions ≤ (indexFile ps idx path code lang).totalFunctions ∧
    idx.totalClasses ≤ (indexFile ps idx path code lang).totalClasses ∧
    (∀ k ∈ idx.files.map Prod.fst,
      k ∈ (indexWorkspace ps idx docs).files.map Prod.fst) ∧
    idx.totalFunctions ≤ (indexWorkspace ps idx docs).totalFunctions ∧
    idx.totalClasses ≤ (indexWorkspace ps idx docs).totalClasses ∧
    indexWorkspace ps idx (docs ++ docs2) =
      indexWorkspace ps (indexWorkspace ps idx docs) docs2 := by
  have h1 := indexFile_mono ps idx path code lang
  have h2 := indexWorkspace_mono ps docs idx
  exact ⟨h1.1, h1.2.1, h1.2.2, h2.1, h2.2.1, h2.2.2,
    List.foldl_append _ _ docs docs2⟩

/-- Concrete instance of `index_grows_monotonically`: after indexing
`/w/a.js`, indexing a second file keeps the first key in the map and the
totals do not decrease. -/
theorem index_grows_monotonically_witness :
    "/w/a.js" ∈
      (indexFile nestRegistry emptyIndex "/w/a.js" nestCode "javascript").files.map
        Prod.fst ∧
    "/w/a.js" ∈
      (indexFile nestRegistry
        (indexFile nestRegistry emptyIndex "/w/a.js" nestCode "javascript")
        "/w/b.js" nestCode "javascript").files.map Prod.fst ∧
    (indexFile nestRegistry emptyIndex "/w/a.js" nestCode
        "javascript").totalFunctions ≤
      (indexFile nestRegistry
        (indexFile nestRegistry emptyIndex "/w/a.js" nestCode "javascript")
        "/w/b.js" nestCode "javascript").totalFunctions :=
  ⟨by decide,
    (index_grows_monotonically nestRegistry
      (indexFile nestRegistry emptyIndex "/w/a.js" nestCode "javascript")
      [] [] "/w/b.js" nestCode "javascript").1 "/w/a.js" (by decide),
    (index_grows_monotonically nestRegistry
      (indexFile nestRegistry emptyIndex "/w/a.js" nestCode "javascript")
      [] [] "/w/b.js" nestCode "javascript").2.1⟩

theorem mapGet_mapSet_self (m : List (String × FileAnalysis)) (k : String)
    (v : FileAnalysis) : mapGet (mapSet m k v) k = some v := by
  induction m with
  | nil => simp [mapSet, mapGet, List.find?]
  | cons p rest ih =>
      rw [mapSet]
      by_cases hk : p.1 = k
      · rw [if_pos hk, mapGet_cons]
        simp
      · rw [if_neg hk, mapGet_cons, if_neg hk]
        exact ih

theorem walkTree_fileName (n : Node) (code : String) (a : FileAnalysis) :
    (walkTree n code a).fileName = a.fileName := by
  rw [walkTree_spec]

/-- C10: every `FileAnalysis` that `parseFile` returns carries the empty
string as `fileName` (the fresh record's value, which the tree walk never
touches); the field is populated only afterwards by `indexFile`, which
stores the analysis under the path with `fileName` set to the base name of
the indexed path. -/
theorem parse_file_filename_empty (ps : Registry) (idx : CodebaseIndex)
    (path code lang : String) :
    (∀ a, parseFile ps code lang = some a → a.fileName = "") ∧
    (∀ a, parseFile ps code lang = some a →
      mapGet (indexFile ps idx path code lang).files path =
        some { a with fileName := basename path }) := by
  constructor
  · intro a ha
    rcases hreg : registryGet ps lang with _ | p
    · unfold parseFile at ha
      simp only [hreg] at ha
      exact absurd ha (by simp)
    · rcases hpp : p.parse code with _ | rootNode
      · unfold parseFile at ha
        simp only [hreg, hpp] at ha
        exact absurd ha (by simp)
      · unfold parseFile at ha
        simp only [hreg, hpp, Option.some.injEq] at ha
        rw [← ha, walkTree_fileName]
  · intro a ha
    have hidx : indexFile ps idx path code lang =
        { files := mapSet idx.files path { a with fileName := basename path }
          totalFunctions := idx.totalFunctions + a.functions.length
          totalClasses := idx.totalClasses + a.classes.length } := by
      unfold indexFile
      rw [ha]
    rw [hidx]
    exact mapGet_mapSet_self idx.files path _

/-- Concrete instance of `parse_file_filename_empty`: the nested-function
demo analysis comes out of `parseFile` with an empty `fileName`, and
`indexFile` stores it under the path with `fileName` `a.js`. -/
theorem parse_file_filename_empty_witness :
    parseFile nestRegistry nestCode "javascript" = some nestAnalysis ∧
    nestAnalysis.fileName = "" ∧
    mapGet (indexFile nestRegistry emptyIndex "/w/a.js" nestCode
      "javascript").files "/w/a.js" =
        some { nestAnalysis with fileName := basename "/w/a.js" } ∧
    basename "/w/a.js" = "a.js" :=
  ⟨by decide,
    (parse_file_filename_empty nestRegistry emptyIndex "/w/a.js" nestCode
      "javascript").1 nestAnalysis (by decide),
    (parse_file_filename_empty nestRegistry emptyIndex "/w/a.js" nestCode
      "javascript").2 nestAnalysis (by decide),
    by decide⟩

end OmniGuard
